import Mathlib

/-!
Verification of the quantitative evaluation engine
(`src/evaluation/{data,backtest,signal,analysis,config}.py`).

Shallow embedding conventions:
* dates are integers (days); `as_of_date + horizon` is integer addition,
  matching calendar-day `timedelta` arithmetic;
* prices, signals, returns and scores are `Option ℚ`, with `none` standing
  for a missing value (`NaN`/`None` in the source);
* pandas tables are lists of row structures; `sort_values` (a stable sort on
  the key column) is embedded as `List.insertionSort` on the key;
* Python `dict` / `pd.Series` assignment is embedded as an association list
  with update-in-place-or-append semantics (`seriesInsert`).
-/

namespace EvalEngine

/-! ### Price data and forward returns (`evaluation/data.py`) -/

/-- One row of the FUND price table: identifier (`cusip`), date, and the
price column used for returns (`price_adjusted`/`price`); `none` = `NaN`. -/
structure PriceRow where
  cusip : ℕ
  date : ℤ
  price : Option ℚ
  deriving DecidableEq, Repr

/-- The date ordering used by `sort_values("date")`. -/
def dateLE (a b : PriceRow) : Prop := a.date ≤ b.date

instance : DecidableRel dateLE := fun a b => inferInstanceAs (Decidable (a.date ≤ b.date))

instance : IsTotal PriceRow dateLE := ⟨fun a b => Int.le_total a.date b.date⟩

instance : IsTrans PriceRow dateLE := ⟨fun _ _ _ hab hbc => le_trans hab hbc⟩

/-- `fund_df[fund_df["cusip"] == cusip]`. -/
def companyRows (fund : List PriceRow) (cusip : ℕ) : List PriceRow :=
  fund.filter (fun r => r.cusip == cusip)

/-- `company_data.sort_values("date")` (stable sort by date). -/
def sortByDate (l : List PriceRow) : List PriceRow :=
  l.insertionSort dateLE

/-- `compute_forward_returns(fund_df, as_of_date, horizons, cusip)`
from `evaluation/data.py` lines 81-173: filter to the company, sort by date,
take the most recent row with `date <= as_of_date` as the base; for each
horizon, the target is the first row with `date > base date` and
`date >= as_of_date + horizon`; the return is
`(target_price - base_price) / base_price`.  `none` results embed the `NaN`
returns of the source (missing data, empty series, or non-positive price). -/
def computeForwardReturns (fund : List PriceRow) (asOf : ℤ) (horizons : List ℕ)
    (cusip : ℕ) : List (ℕ × Option ℚ) :=
  let company := companyRows fund cusip
  if company.isEmpty then horizons.map (fun h => (h, none)) else
  let sorted := sortByDate company
  let historical := sorted.filter (fun r => r.date ≤ asOf)
  match historical.getLast? with
  | none => horizons.map (fun h => (h, none))
  | some base =>
    match base.price with
    | none => horizons.map (fun h => (h, none))
    | some basePrice =>
      if basePrice ≤ 0 then horizons.map (fun h => (h, none)) else
      horizons.map (fun (h : ℕ) => (h,
        let future := sorted.filter (fun r => base.date < r.date)
        let targetData := future.filter (fun r => asOf + (h : ℤ) ≤ r.date)
        match targetData.head? with
        | none => none
        | some target =>
          match target.price with
          | none => none
          | some targetPrice =>
            if targetPrice ≤ 0 then none
            else some ((targetPrice - basePrice) / basePrice)))

/-- Look up one horizon's value in the result of `computeForwardReturns`
(the `pd.Series` is indexed by horizon). -/
def returnFor (out : List (ℕ × Option ℚ)) (h : ℕ) : Option ℚ :=
  (out.find? (fun p => p.1 == h)).bind (fun p => p.2)

/-- The date of the row actually used as the target for one horizon (the
first row with `date > base date` and `date >= as_of_date + horizon`),
when a base row exists.  Extracted from the same selection logic as
`computeForwardReturns`; used to state the no-look-ahead property. -/
def realizedTargetDate (fund : List PriceRow) (asOf : ℤ) (h : ℕ) (cusip : ℕ) :
    Option ℤ :=
  match ((sortByDate (companyRows fund cusip)).filter (fun r => r.date ≤ asOf)).getLast? with
  | none => none
  | some base =>
    (((sortByDate (companyRows fund cusip)).filter (fun r => base.date < r.date)).filter
        (fun r => asOf + (h : ℤ) ≤ r.date)).head?.map (fun r => r.date)

/-- Modelled from the spec's words for claim C2 (spec §4.1): base = most
recent price with date ≤ as-of; target = first price with date > base date
and date ≥ as-of + horizon; result `(target_price/base_price) - 1`, null
when base or target is absent.  Prices are read with `getD 0`, immaterial
under the positivity hypothesis of the refinement theorem. -/
def specForwardReturn (fund : List PriceRow) (asOf : ℤ) (h : ℕ) (cusip : ℕ) :
    Option ℚ :=
  let sorted := sortByDate (companyRows fund cusip)
  match (sorted.filter (fun r => r.date ≤ asOf)).getLast? with
  | none => none
  | some base =>
    match (sorted.filter
        (fun r => decide (base.date < r.date) && decide (asOf + (h : ℤ) ≤ r.date))).head? with
    | none => none
    | some target => some (target.price.getD 0 / base.price.getD 0 - 1)

/-! ### Portfolio construction and turnover (`evaluation/backtest.py`) -/

/-- One row of the evaluation universe as consumed by `construct_portfolio`:
identifier (ticker, falling back to cusip), as-of date, and the signal
column (`none` = `NaN`). -/
structure SignalRow where
  ident : ℕ
  date : ℤ
  signal : Option ℚ
  deriving DecidableEq, Repr

/-- Descending-signal ordering of `sort_values(signal_col, ascending=False)`
(`None` signals never survive the notna filter, so `getD 0` is immaterial). -/
def signalGE (a b : SignalRow) : Prop := b.signal.getD 0 ≤ a.signal.getD 0

instance : DecidableRel signalGE :=
  fun a b => inferInstanceAs (Decidable (b.signal.getD 0 ≤ a.signal.getD 0))

/-- Python `dict` / `pd.Series` element assignment: update in place when the
key is present, append otherwise. -/
def seriesInsert (s : List (ℕ × ℚ)) (k : ℕ) (v : ℚ) : List (ℕ × ℚ) :=
  if s.any (fun p => p.1 == k) then
    s.map (fun p => if p.1 == k then (k, v) else p)
  else s ++ [(k, v)]

/-- The rows of the universe at the given date whose signal is non-null
(the `date_data` of `construct_portfolio` after both filters). -/
def validSignalRows (univ : List SignalRow) (asOf : ℤ) : List SignalRow :=
  (univ.filter (fun r => r.date == asOf)).filter (fun r => r.signal.isSome)

/-- `construct_portfolio` (`evaluation/backtest.py` lines 193-275): rank by
signal descending, long the top `max 1 ⌊n·q⌋` names, short the bottom as
many, equal-weight each side (`1/n_long`, `-1/n_short`), cap at the max
position weight, and rescale both sides by the common factor
`min(1, maxw/long_weight, maxw/|short_weight|)`.  Python's `int()`
truncation of the non-negative product `n * quantile_size` is `⌊·⌋.toNat`. -/
def constructPortfolio (univ : List SignalRow) (asOf : ℤ)
    (quantileSize maxPositionWeight : ℚ) : List (ℕ × ℚ) :=
  let dateData := validSignalRows univ asOf
  if dateData.length < 2 then [] else
  let sorted := dateData.insertionSort signalGE
  let n := sorted.length
  let nLong := max 1 (⌊(n : ℚ) * quantileSize⌋.toNat)
  let nShort := max 1 (⌊(n : ℚ) * quantileSize⌋.toNat)
  let longNames := sorted.take nLong
  let shortNames := sorted.drop (n - nShort)
  let longWeight0 := 1 / (nLong : ℚ)
  let shortWeight0 := -(1 / (nShort : ℚ))
  let longWeight1 := min longWeight0 maxPositionWeight
  let shortWeight1 := max shortWeight0 (-maxPositionWeight)
  let totalLong := longWeight1 * nLong
  let totalShort := |shortWeight1| * nShort
  let scaled :=
    if 0 < totalLong ∧ 0 < totalShort then
      let scale := min 1 (min (maxPositionWeight / longWeight1)
        (maxPositionWeight / |shortWeight1|))
      (longWeight1 * scale, shortWeight1 * scale)
    else (longWeight1, shortWeight1)
  let weights := longNames.foldl (fun s r => seriesInsert s r.ident scaled.1) []
  shortNames.foldl (fun s r => seriesInsert s r.ident scaled.2) weights

/-- Sum of the positive (long) weights of a weight series. -/
def posWeightSum (w : List (ℕ × ℚ)) : ℚ :=
  ((w.filter (fun p => 0 < p.2)).map (fun p => p.2)).sum

/-- Sum of the negative (short) weights of a weight series. -/
def negWeightSum (w : List (ℕ × ℚ)) : ℚ :=
  ((w.filter (fun p => p.2 < 0)).map (fun p => p.2)).sum

/-- Value of an aligned weight vector at a name: the series value when the
name is in the index, `0.0` otherwise (`compute_turnover`'s alignment). -/
def alignedWeight (w : List (ℕ × ℚ)) (name : ℕ) : ℚ :=
  ((w.find? (fun p => p.1 == name)).map (fun p => p.2)).getD 0

/-- `compute_turnover` (`evaluation/backtest.py` lines 278-310): align both
weight vectors over the union of their names (missing names contribute 0)
and return `Σ|curr − prev| / 2`. -/
def computeTurnover (weightsPrev weightsCurr : List (ℕ × ℚ)) : ℚ :=
  let allNames := (weightsPrev.map (fun p => p.1) ++ weightsCurr.map (fun p => p.1)).dedup
  ((allNames.map (fun name =>
    |alignedWeight weightsCurr name - alignedWeight weightsPrev name|)).sum) / 2

/-! ### Rating translation (`evaluation/signal.py`, `evaluation/config.py`)
and consensus classification (`evaluation/analysis.py`) -/

/-- Python `str.upper()` (ASCII letters), over the character list. -/
def strUpper (s : String) : String := ⟨s.data.map Char.toUpper⟩

/-- Python `str.strip()`: drop leading and trailing whitespace. -/
def strStrip (s : String) : String :=
  ⟨((s.data.dropWhile Char.isWhitespace).reverse.dropWhile Char.isWhitespace).reverse⟩

/-- Python `pat in s`: does `pat` occur as a contiguous substring of `s`? -/
def strContains (s pat : String) : Bool :=
  (List.range (s.data.length + 1)).any (fun i => pat.data.isPrefixOf (s.data.drop i))

/-- `RATING_TO_SCORE` from `evaluation/config.py` lines 52-67, in `dict`
insertion order (the literal repeats the key "STRONG BUY" with the same
value; a `dict` keeps one entry). -/
def RATING_TO_SCORE : List (String × ℚ) :=
  [("StrongBuy", 2), ("Buy", 1), ("Hold", 0), ("UnderPerform", -1), ("Sell", -2),
   ("STRONG BUY", 2), ("STRONGBUY", 2), ("BUY", 1), ("HOLD", 0),
   ("UNDERPERFORM", -1), ("UNDER PERFORM", -1), ("SELL", -2)]

/-- `rating_to_base_score` (`evaluation/signal.py` lines 128-152): uppercase
the stripped input, look it up as an exact key of `RATING_TO_SCORE`, then
try the case-insensitive variation loop, and default to 0 (Hold). -/
def ratingToBaseScore (rating : String) : ℚ :=
  let ratingUpper := strUpper (strStrip rating)
  match RATING_TO_SCORE.find? (fun e => e.1 == ratingUpper) with
  | some e => e.2
  | none =>
    match RATING_TO_SCORE.find? (fun e => strUpper e.1 == ratingUpper) with
    | some e => e.2
    | none => 0

/-- Modelled from the claim's words for C4: exact case-insensitive match
against the canonical five-entry table, then the ordered substring
heuristics (STRONG and BUY → 2; BUY → 1; HOLD → 0; UNDER → −1; SELL → −2),
then the default 0. -/
def ratingToBaseScoreClaim (rating : String) : ℚ :=
  let u := strUpper (strStrip rating)
  match [("StrongBuy", (2 : ℚ)), ("Buy", 1), ("Hold", 0), ("UnderPerform", -1),
      ("Sell", -2)].find? (fun e => strUpper e.1 == u) with
  | some e => e.2
  | none =>
    if strContains u "STRONG" && strContains u "BUY" then 2
    else if strContains u "BUY" then 1
    else if strContains u "HOLD" then 0
    else if strContains u "UNDER" then -1
    else if strContains u "SELL" then -2
    else 0

/-- Amended spec side for C4: a single exact case-insensitive lookup in
`RATING_TO_SCORE` (no substring heuristics), defaulting to 0. -/
def ratingToBaseScoreCI (rating : String) : ℚ :=
  match RATING_TO_SCORE.find? (fun e => strUpper e.1 == strUpper (strStrip rating)) with
  | some e => e.2
  | none => 0

/-- `human_rating_to_score` (`evaluation/analysis.py` lines 19-53): null
ratings map to 0.0; otherwise a case-insensitive table lookup, then the
substring heuristics, then 0. -/
def humanRatingToScore (rating : Option String) : ℚ :=
  match rating with
  | none => 0
  | some s =>
    let ratingStr := strUpper (strStrip s)
    match RATING_TO_SCORE.find? (fun e => strUpper e.1 == ratingStr) with
    | some e => e.2
    | none =>
      if strContains ratingStr "STRONG" && strContains ratingStr "BUY" then 2
      else if strContains ratingStr "BUY" then 1
      else if strContains ratingStr "HOLD" then 0
      else if strContains ratingStr "UNDER" || strContains ratingStr "UNDERPERFORM" then -1
      else if strContains ratingStr "SELL" then -2
      else 0

/-- `classify_consensus_contrarian` (`evaluation/analysis.py` lines 56-81):
"Unknown" when either score is null; "Agreement" when the product is ≥ 0;
otherwise "AI_More_Bullish" when ai > human, else "AI_More_Bearish". -/
def classifyConsensusContrarian (aiScore humanScore : Option ℚ) : String :=
  match aiScore, humanScore with
  | some a, some h =>
    if 0 ≤ a * h then "Agreement"
    else if h < a then "AI_More_Bullish"
    else "AI_More_Bearish"
  | _, _ => "Unknown"

/-- The bucket `analyze_consensus_contrarian` assigns to a row
(`evaluation/analysis.py` lines 108-126): the human rating is first mapped
through `human_rating_to_score` (never null), then classified against the
AI base score. -/
def bucketOf (aiBase : Option ℚ) (humanRating : Option String) : String :=
  classifyConsensusContrarian aiBase (some (humanRatingToScore humanRating))

/-! ### IC statistics (`evaluation/backtest.py` lines 77-146) -/

/-- `np.mean` / pandas `.mean()`: sum divided by length. -/
def npMean (xs : List ℚ) : ℚ := xs.sum / xs.length

/-- `np.var` (default `ddof = 0`): mean squared deviation from the mean. -/
def npVar (xs : List ℚ) : ℚ := ((xs.map (fun x => (x - npMean xs) ^ 2)).sum) / xs.length

/-- pandas `.std()` squared (`ddof = 1`): `none` (`NaN`) with fewer than 2
observations, else `Σ(x − mean)² / (n − 1)`.  Carrying the squared value
keeps the embedding rational; `std_ic > 0` iff this is `some s` with
`0 < s`. -/
def sampleStdSq (xs : List ℚ) : Option ℚ :=
  if 2 ≤ xs.length then
    some (((xs.map (fun x => (x - npMean xs) ^ 2)).sum) / ((xs.length : ℚ) - 1))
  else none

/-- `np.mean(residuals[:-lag] * residuals[lag:])` as the source actually
computes it: `residuals` is a date-indexed pandas Series, so the two slices
multiply with label alignment — at each common date `d_i`
(`lag ≤ i ≤ n−1−lag`) the product is the squared residual `r_i²`, the
non-overlapping dates give `NaN` — and `np.mean` dispatches to the skipna
`Series.mean`, yielding `Σ_{i=k}^{n−1−k} r_i² / (n−2k)`; `none` (`NaN`)
when the two slices share no date (`n ≤ 2k`). -/
def autocovAligned (res : List ℚ) (k : ℕ) : Option ℚ :=
  let common := (res.drop k).take (res.length - 2 * k)
  if common.isEmpty then none
  else some ((common.map (fun x => x ^ 2)).sum / (common.length : ℚ))

/-- Modelled from the spec's words for claim C5: the lag-`k` autocovariance
`Σ r_i·r_{i+k} / (n−k)` of the residuals — the positional lagged-product
mean that `np.mean(residuals[:-lag] * residuals[lag:])` was intended to
compute. -/
def autocovSpec (res : List ℚ) (k : ℕ) : ℚ :=
  npMean ((res.zip (res.drop k)).map (fun p => p.1 * p.2))

/-- The Newey-West variance loop of `compute_ic_statistics`: start from
`np.var(residuals)` and add `2 · weight · autocov(lag)` for
`lag ∈ range(1, min(nw_lags + 1, n))` with Bartlett weight `1 − lag/(L+1)`,
where `autocov` is the label-aligned `autocovAligned`; a `NaN` autocov
poisons the running variance, which stays `NaN` (`none`) from then on. -/
def nwVariance (res : List ℚ) (L n : ℕ) : Option ℚ :=
  (List.range' 1 (min (L + 1) n - 1)).foldl
    (fun v (k : ℕ) =>
      match v, autocovAligned res k with
      | some vv, some ac => some (vv + 2 * (1 - (k : ℚ) / ((L : ℚ) + 1)) * ac)
      | _, _ => none)
    (some (npVar res))

/-- The record returned by `compute_ic_statistics`.  The t-statistic is kept
as the pair (mean, squared standard error): the source's float t-statistic
equals `mean / sqrt(se²)`, and the pair is `none` exactly when the source
produces `NaN`. -/
structure ICStats where
  mean_ic : Option ℚ
  stdSq_ic : Option ℚ
  tStatParts : Option (ℚ × ℚ)
  hitRate : Option ℚ
  n_observations : ℕ
  deriving DecidableEq, Repr

/-- `compute_ic_statistics` (`evaluation/backtest.py` lines 77-146). -/
def computeICStatistics (ic : List ℚ) (nwLags : ℕ) : ICStats :=
  if ic = [] then ⟨none, none, none, none, 0⟩ else
  let n := ic.length
  let meanIC := npMean ic
  let stdSq := sampleStdSq ic
  let tParts : Option (ℚ × ℚ) :=
    if n ≤ nwLags + 1 then
      match stdSq with
      | some s => if 0 < s then some (meanIC, s / (n : ℚ)) else none
      | none => none
    else
      let residuals := ic.map (fun x => x - meanIC)
      match nwVariance residuals nwLags n with
      | none => none
      | some variance =>
        if 0 < variance / (n : ℚ) then some (meanIC, variance / (n : ℚ)) else none
  let hit := ((ic.filter (fun x => 0 < x)).length : ℚ) / (n : ℚ)
  ⟨some meanIC, stdSq, tParts, some hit, n⟩

/-- Modelled from the spec's words for claim C5: when `n > L+1` the
t-statistic uses `variance = sample variance + 2·Σ_{k=1}^{L} w_k·autocov(k)`
with Bartlett weight `w_k = 1 − k/(L+1)` and `t = mean/sqrt(variance/n)`;
when `n ≤ L+1` it falls back to the naive `t = mean/(std/sqrt(n))`.  Same
(mean, squared-standard-error) representation as the embedding. -/
def tStatSpec (ic : List ℚ) (L : ℕ) : Option (ℚ × ℚ) :=
  let n := ic.length
  let m := npMean ic
  if n ≤ L + 1 then
    match sampleStdSq ic with
    | some s => if 0 < s then some (m, s / (n : ℚ)) else none
    | none => none
  else
    let dev := ic.map (fun x => x - m)
    let v := npVar ic +
      2 * ∑ k ∈ Finset.Icc 1 L, (1 - (k : ℚ) / ((L : ℚ) + 1)) * autocovSpec dev k
    if 0 < v / (n : ℚ) then some (m, v / (n : ℚ)) else none

/-! ### IC series (`evaluation/backtest.py` lines 27-74) -/

/-- One row of the universe as consumed by `compute_ic_series`: as-of date,
signal column and forward-return column (`none` = `NaN`). -/
structure URow where
  date : ℤ
  signal : Option ℚ
  ret : Option ℚ
  deriving DecidableEq, Repr

/-- One date group restricted to rows with both signal and return non-null
(the `valid` frame inside `compute_ic_series`). -/
def validICRows (univ : List URow) (d : ℤ) : List URow :=
  (univ.filter (fun r => r.date == d)).filter (fun r => r.signal.isSome && r.ret.isSome)

/-- Centered sum of squares `Σ(x − mean)²`. -/
def ssq (xs : List ℚ) : ℚ := (xs.map (fun x => (x - npMean xs) ^ 2)).sum

/-- Centered cross product `Σ(x − mean x)·(y − mean y)`. -/
def sxy (xs ys : List ℚ) : ℚ :=
  (((xs.map (fun x => x - npMean xs)).zip (ys.map (fun y => y - npMean ys))).map
    (fun p => p.1 * p.2)).sum

/-- pandas `Series.corr` represented as (numerator, squared denominator):
the float correlation equals `num / sqrt(denSq)` and is `NaN` exactly when
`Σ(x−x̄)²·Σ(y−ȳ)² = 0` (a constant column), in which case this is `none` —
mirroring the `np.isnan(ic)` test of the source. -/
def pearsonParts (xs ys : List ℚ) : Option (ℚ × ℚ) :=
  if ssq xs * ssq ys = 0 then none else some (sxy xs ys, ssq xs * ssq ys)

instance : DecidableRel (fun a b : ℤ => a ≤ b) := fun a b => Int.decLe a b

/-- The distinct as-of dates in ascending order (`groupby` iterates keys in
sorted order and the resulting series is `sort_index`ed). -/
def icDates (univ : List URow) : List ℤ :=
  ((univ.map (fun r => r.date)).dedup).insertionSort (fun a b => a ≤ b)

/-- `compute_ic_series` (`evaluation/backtest.py` lines 27-74): group rows
by as-of date; skip dates with fewer than 2 rows with both signal and
return non-null; compute the cross-sectional Pearson correlation; append it
only when it is not `NaN`. -/
def computeICSeries (univ : List URow) : List (ℤ × (ℚ × ℚ)) :=
  (icDates univ).filterMap (fun d =>
    let valid := validICRows univ d
    if valid.length < 2 then none
    else
      match pearsonParts (valid.map (fun r => r.signal.getD 0))
          (valid.map (fun r => r.ret.getD 0)) with
      | none => none
      | some ic => some (d, ic))

/-! ### Helper lemmas -/

lemma filter_eq_filter_filter {α : Type} (p q : α → Bool) (l : List α)
    (h : ∀ x ∈ l, p x = true → q x = true) :
    l.filter p = (l.filter q).filter p := by
  rw [List.filter_filter]
  refine List.filter_congr ?_
  intro x hx
  cases hp : p x
  · simp
  · simp [h x hx hp]

lemma head?_filter_and {α : Type} (P Q : α → Bool) :
    ∀ (l : List α) (x : α), (l.filter P).head? = some x → Q x = true →
      (l.filter (fun a => P a && Q a)).head? = some x
  | [], x, hx, _ => by simp at hx
  | a :: tl, x, hx, hq => by
    cases hp : P a with
    | true =>
      rw [List.filter_cons_of_pos hp] at hx
      simp only [List.head?_cons, Option.some.injEq] at hx
      subst hx
      rw [List.filter_cons_of_pos (by simp [hp, hq])]
      rfl
    | false =>
      rw [List.filter_cons_of_neg (by simp [hp])] at hx
      rw [List.filter_cons_of_neg (by simp [hp])]
      exact head?_filter_and P Q tl x hx hq

lemma pairwise_sortByDate (l : List PriceRow) : (sortByDate l).Pairwise dateLE :=
  List.sorted_insertionSort dateLE l

lemma head?_filter_sorted (P : PriceRow → Bool) (T : ℤ) :
    ∀ (l : List PriceRow), l.Pairwise dateLE →
      ∀ (x : PriceRow), (l.filter (fun a => P a && decide (a.date ≤ T))).head? = some x →
      x.date = T → (l.filter P).head? = some x
  | [], _, x, hx, _ => by simp at hx
  | a :: tl, hpair, x, hx, hxT => by
    obtain ⟨ha, htl⟩ := List.pairwise_cons.mp hpair
    cases hp : P a with
    | false =>
      rw [List.filter_cons_of_neg (by simp [hp])] at hx
      rw [List.filter_cons_of_neg (by simp [hp])]
      exact head?_filter_sorted P T tl htl x hx hxT
    | true =>
      by_cases haT : a.date ≤ T
      · rw [List.filter_cons_of_pos (by simp [hp, haT])] at hx
        simp only [List.head?_cons, Option.some.injEq] at hx
        subst hx
        rw [List.filter_cons_of_pos hp]
        rfl
      · exfalso
        rw [List.filter_cons_of_neg (by simp [haT])] at hx
        cases hfl : tl.filter (fun a => P a && decide (a.date ≤ T)) with
        | nil => rw [hfl] at hx; simp at hx
        | cons y ys =>
          rw [hfl] at hx
          simp only [List.head?_cons, Option.some.injEq] at hx
          have hxtl : x ∈ tl := by
            have hmem : x ∈ tl.filter (fun a => P a && decide (a.date ≤ T)) := by
              rw [hfl, hx]
              exact List.mem_cons_self _ _
            exact (List.mem_filter.mp hmem).1
          have h2 : a.date ≤ x.date := ha x hxtl
          omega

lemma returnFor_single (h : ℕ) (v : Option ℚ) : returnFor [(h, v)] h = v := by
  simp [returnFor]

lemma mem_of_head?_eq_some {α : Type} {l : List α} {x : α} (h : l.head? = some x) :
    x ∈ l := by
  cases l with
  | nil => simp at h
  | cons a tl =>
    simp only [List.head?_cons, Option.some.injEq] at h
    rw [← h]
    exact List.mem_cons_self _ _

lemma mem_of_getLast?_eq_some {α : Type} {l : List α} {x : α} (h : l.getLast? = some x) :
    x ∈ l := by
  induction l with
  | nil => simp at h
  | cons a tl ih =>
    cases tl with
    | nil =>
      simp only [List.getLast?_singleton, Option.some.injEq] at h
      rw [← h]
      exact List.mem_cons_self _ _
    | cons b tl' =>
      rw [List.getLast?_cons_cons] at h
      exact List.mem_cons_of_mem _ (ih h)

lemma mem_sortByDate {l : List PriceRow} {x : PriceRow} (h : x ∈ sortByDate l) : x ∈ l := by
  unfold sortByDate at h
  exact (List.mem_insertionSort dateLE).mp h

lemma returnFor_map_none (hs : List ℕ) (h : ℕ) :
    returnFor (hs.map (fun x => (x, (none : Option ℚ)))) h = none := by
  induction hs with
  | nil => rfl
  | cons a tl ih =>
    simp only [List.map_cons, returnFor, List.find?_cons]
    cases hab : (a == h) with
    | true => rfl
    | false => simp only [returnFor] at ih; exact ih

lemma returnFor_map (g : ℕ → Option ℚ) (hs : List ℕ) (h : ℕ) (hmem : h ∈ hs) :
    returnFor (hs.map (fun x => (x, g x))) h = g h := by
  induction hs with
  | nil => simp at hmem
  | cons a tl ih =>
    simp only [List.map_cons, returnFor, List.find?_cons]
    cases hab : (a == h) with
    | true =>
      have hae : a = h := by simpa using hab
      simp [hae]
    | false =>
      have hne : a ≠ h := by simpa using hab
      rcases List.mem_cons.mp hmem with hc | hc
      · exact absurd hc.symm hne
      · simpa [returnFor] using ih hc

lemma floor_mul_fifth (n : ℕ) : (⌊(n : ℚ) * (1 / 5)⌋).toNat = n / 5 := by
  rw [Int.floor_toNat, mul_one_div]
  have h5 : ((5 : ℕ) : ℚ) = (5 : ℚ) := by norm_num
  rw [← h5, Nat.floor_div_nat, Nat.floor_natCast]

lemma foldl_seriesInsert (c : ℚ) :
    ∀ (rows : List SignalRow) (s : List (ℕ × ℚ)),
      (rows.map (fun r => r.ident)).Nodup →
      (∀ r ∈ rows, ∀ p ∈ s, p.1 ≠ r.ident) →
      rows.foldl (fun acc r => seriesInsert acc r.ident c) s =
        s ++ rows.map (fun r => (r.ident, c))
  | [], s, _, _ => by simp
  | r :: tl, s, hnd, hfresh => by
    have hnotany : (s.any (fun p => p.1 == r.ident)) = false := by
      rw [List.any_eq_false]
      intro p hp
      simpa using hfresh r (List.mem_cons_self _ _) p hp
    have hins : seriesInsert s r.ident c = s ++ [(r.ident, c)] := by
      unfold seriesInsert
      rw [hnotany]
      simp
    simp only [List.foldl_cons, hins]
    rw [List.map_cons] at hnd
    have hnd' := (List.nodup_cons.mp hnd).2
    have hhead := (List.nodup_cons.mp hnd).1
    rw [foldl_seriesInsert c tl (s ++ [(r.ident, c)]) hnd' ?_]
    · simp
    · intro r' hr' p hp
      rcases List.mem_append.mp hp with hps | hpr
      · exact hfresh r' (List.mem_cons_of_mem _ hr') p hps
      · have : p = (r.ident, c) := by simpa using hpr
        subst this
        intro hcontra
        simp only at hcontra
        exact hhead (hcontra ▸ List.mem_map.mpr ⟨r', hr', rfl⟩)

/-- Closed form of `constructPortfolio` at the default quantile size 1/5,
under a positive cap and pairwise-distinct identifiers. -/
lemma constructPortfolio_closed_form (univ : List SignalRow) (asOf : ℤ) (maxw : ℚ)
    (hmw : 0 < maxw)
    (hnd : ((validSignalRows univ asOf).map (fun r => r.ident)).Nodup)
    (hlen : 2 ≤ (validSignalRows univ asOf).length) :
    constructPortfolio univ asOf (1 / 5) maxw =
      (((validSignalRows univ asOf).insertionSort signalGE).take
          (max 1 ((validSignalRows univ asOf).length / 5))).map
        (fun r => (r.ident,
          min (1 / ((max 1 ((validSignalRows univ asOf).length / 5) : ℕ) : ℚ)) maxw)) ++
      (((validSignalRows univ asOf).insertionSort signalGE).drop
          ((validSignalRows univ asOf).length -
            max 1 ((validSignalRows univ asOf).length / 5))).map
        (fun r => (r.ident,
          -(min (1 / ((max 1 ((validSignalRows univ asOf).length / 5) : ℕ) : ℚ)) maxw))) := by
  have hslen : ((validSignalRows univ asOf).insertionSort signalGE).length =
      (validSignalRows univ asOf).length := List.length_insertionSort _ _
  set v := validSignalRows univ asOf with hv
  set s := v.insertionSort signalGE with hs
  set N := v.length with hN
  set m := max 1 (N / 5) with hm
  have hm1 : 1 ≤ m := le_max_left _ _
  have hmN : m ≤ N := by
    have : N / 5 ≤ N := Nat.div_le_self _ _
    omega
  have hmhalf : m ≤ N - m := by
    have h5 : N / 5 ≤ N := Nat.div_le_self _ _
    have : 2 * (N / 5) ≤ N := by omega
    omega
  have hmQ : (0 : ℚ) < (m : ℚ) := by exact_mod_cast hm1
  set w := min (1 / (m : ℚ)) maxw with hw
  have hwpos : 0 < w := lt_min (by positivity) hmw
  have hwle : w ≤ maxw := min_le_right _ _
  -- identifiers of the sorted list are still pairwise distinct
  have hndS : (s.map (fun r => r.ident)).Nodup := by
    have hperm : s.Perm v := List.perm_insertionSort signalGE v
    exact ((hperm.map (fun r => r.ident)).nodup_iff).mpr hnd
  have hdisj : ∀ x ∈ s.take m, x ∉ s.drop (N - m) := by
    intro x hx hx'
    have hd := List.disjoint_take_drop (l := s.map (fun r => r.ident)) hndS
      (m := m) (n := N - m) (by omega)
    rw [← List.map_take, ← List.map_drop] at hd
    exact hd (List.mem_map.mpr ⟨x, hx, rfl⟩) (List.mem_map.mpr ⟨x, hx', rfl⟩)
  -- evaluate the definition
  simp only [constructPortfolio, ← hv, ← hs, ← hN, hslen, floor_mul_fifth, ← hm]
  rw [if_neg (by omega)]
  -- the capped weights
  have hshort : max (-(1 / (m : ℚ))) (-maxw) = -w := by
    rw [hw, max_neg_neg]
  rw [hshort]
  have habs : |(-w)| = w := by rw [abs_neg, abs_of_pos hwpos]
  rw [habs]
  have htl : (0 : ℚ) < w * m := by positivity
  have hts : (0 : ℚ) < w * m := htl
  rw [if_pos ⟨htl, hts⟩]
  have hscale : min 1 (min (maxw / w) (maxw / w)) = 1 := by
    have h1 : (1 : ℚ) ≤ maxw / w := (one_le_div hwpos).mpr hwle
    rw [min_self]
    exact min_eq_left h1
  rw [hscale, mul_one, mul_one]
  -- build the weight series
  have hndTake : ((s.take m).map (fun r => r.ident)).Nodup :=
    List.Nodup.sublist ((List.take_sublist _ _).map _) hndS
  have hndDrop : ((s.drop (N - m)).map (fun r => r.ident)).Nodup :=
    List.Nodup.sublist ((List.drop_sublist _ _).map _) hndS
  rw [foldl_seriesInsert w (s.take m) [] hndTake (by intro r _ p hp; simp at hp)]
  rw [List.nil_append]
  rw [foldl_seriesInsert (-w) (s.drop (N - m)) _ hndDrop ?_]
  intro r hr p hp
  rcases List.mem_map.mp hp with ⟨x, hx, rfl⟩
  intro hcontra
  have : x.ident ∈ (s.drop (N - m)).map (fun r => r.ident) :=
    List.mem_map.mpr ⟨r, hr, hcontra.symm⟩
  rcases List.mem_map.mp this with ⟨y, hy, hxy⟩
  -- x is in the long block, y in the short block, with the same identifier
  have hxm : x.ident ∈ (s.take m).map (fun r => r.ident) := List.mem_map.mpr ⟨x, hx, rfl⟩
  have hd := List.disjoint_take_drop (l := s.map (fun r => r.ident)) hndS
    (m := m) (n := N - m) (by omega)
  rw [← List.map_take, ← List.map_drop] at hd
  exact hd hxm (hxy ▸ List.mem_map.mpr ⟨y, hy, rfl⟩)

lemma posWeightSum_append (w1 w2 : List (ℕ × ℚ)) :
    posWeightSum (w1 ++ w2) = posWeightSum w1 + posWeightSum w2 := by
  simp [posWeightSum, List.filter_append]

lemma negWeightSum_append (w1 w2 : List (ℕ × ℚ)) :
    negWeightSum (w1 ++ w2) = negWeightSum w1 + negWeightSum w2 := by
  simp [negWeightSum, List.filter_append]

lemma posWeightSum_map_const_pos (rows : List SignalRow) (c : ℚ) (hc : 0 < c) :
    posWeightSum (rows.map (fun r => (r.ident, c))) = rows.length * c := by
  unfold posWeightSum
  rw [List.filter_map, List.map_map]
  have hpred : ((fun p : ℕ × ℚ => decide (0 < p.2)) ∘ fun r : SignalRow => (r.ident, c)) =
      fun _ => true := by
    funext r
    simp [hc]
  rw [hpred, List.filter_eq_self.mpr (fun _ _ => rfl)]
  have : ((fun p : ℕ × ℚ => p.2) ∘ fun r : SignalRow => (r.ident, c)) = fun _ => c := rfl
  rw [this]
  induction rows with
  | nil => simp
  | cons a tl ih => simp [ih]; ring

lemma posWeightSum_map_const_neg (rows : List SignalRow) (c : ℚ) (hc : c < 0) :
    posWeightSum (rows.map (fun r => (r.ident, c))) = 0 := by
  unfold posWeightSum
  rw [List.filter_map]
  have hpred : ((fun p : ℕ × ℚ => decide (0 < p.2)) ∘ fun r : SignalRow => (r.ident, c)) =
      fun _ => false := by
    funext r
    simp [not_lt.mpr (le_of_lt hc)]
  rw [hpred]
  simp

lemma negWeightSum_map_const_pos (rows : List SignalRow) (c : ℚ) (hc : 0 < c) :
    negWeightSum (rows.map (fun r => (r.ident, c))) = 0 := by
  unfold negWeightSum
  rw [List.filter_map]
  have hpred : ((fun p : ℕ × ℚ => decide (p.2 < 0)) ∘ fun r : SignalRow => (r.ident, c)) =
      fun _ => false := by
    funext r
    simp [not_lt.mpr (le_of_lt hc)]
  rw [hpred]
  simp

lemma negWeightSum_map_const_neg (rows : List SignalRow) (c : ℚ) (hc : c < 0) :
    negWeightSum (rows.map (fun r => (r.ident, c))) = rows.length * c := by
  unfold negWeightSum
  rw [List.filter_map, List.map_map]
  have hpred : ((fun p : ℕ × ℚ => decide (p.2 < 0)) ∘ fun r : SignalRow => (r.ident, c)) =
      fun _ => true := by
    funext r
    simp [hc]
  rw [hpred, List.filter_eq_self.mpr (fun _ _ => rfl)]
  have : ((fun p : ℕ × ℚ => p.2) ∘ fun r : SignalRow => (r.ident, c)) = fun _ => c := rfl
  rw [this]
  induction rows with
  | nil => simp
  | cons a tl ih => simp [ih]; ring

lemma alignedWeight_nil (n : ℕ) : alignedWeight [] n = 0 := rfl

lemma turnoverSum_nodup :
    ∀ (W : List (ℕ × ℚ)), (W.map Prod.fst).Nodup →
      ((W.map Prod.fst).map (fun n => |alignedWeight W n|)).sum =
        (W.map (fun p => |p.2|)).sum
  | [], _ => rfl
  | (k, v) :: tl, hnd => by
    rw [List.map_cons] at hnd
    have hk : k ∉ tl.map Prod.fst := (List.nodup_cons.mp hnd).1
    have htl : (tl.map Prod.fst).Nodup := (List.nodup_cons.mp hnd).2
    simp only [List.map_cons, List.sum_cons]
    have h1 : alignedWeight ((k, v) :: tl) k = v := by
      unfold alignedWeight
      simp
    have h2 : ∀ n ∈ tl.map Prod.fst, |alignedWeight ((k, v) :: tl) n| = |alignedWeight tl n| := by
      intro n hn
      have hkn : k ≠ n := fun hc => hk (hc ▸ hn)
      unfold alignedWeight
      rw [List.find?_cons_of_neg _ (by simpa using hkn)]
    rw [h1, List.map_congr_left h2, turnoverSum_nodup tl htl]

lemma char_toNat_ofNat_of_lt {n : ℕ} (h : n < 0xd800) : (Char.ofNat n).toNat = n := by
  unfold Char.ofNat
  rw [dif_pos (Or.inl h)]
  rfl

lemma charToUpper_idem (c : Char) : c.toUpper.toUpper = c.toUpper := by
  simp only [Char.toUpper]
  by_cases h : c.toNat ≥ 97 ∧ c.toNat ≤ 122
  · rw [if_pos h]
    have h1 : (Char.ofNat (c.toNat - 32)).toNat = c.toNat - 32 :=
      char_toNat_ofNat_of_lt (by omega)
    rw [if_neg (by rw [h1]; omega)]
  · rw [if_neg h, if_neg h]

lemma strUpper_idem (s : String) : strUpper (strUpper s) = strUpper s := by
  unfold strUpper
  congr 1
  rw [List.map_map]
  exact List.map_congr_left (fun a _ => charToUpper_idem a)

/-! ### Claim theorems -/

/-- C1 counterexample: the forward return does NOT depend only on price rows
dated inside `[as_of_date, as_of_date + horizon]`.  With as-of date 0 and
horizon 5, adding a price row dated 7 — strictly outside `[0, 5]` and after
the target date 5 — changes the horizon-5 return from 1 to 1/2, because the
target row is the FIRST row dated ≥ 5, which the new row displaces. -/
theorem c1_window_counterexample :
    returnFor (computeForwardReturns
      [⟨0, 0, some 10⟩, ⟨0, 10, some 20⟩] 0 [5] 0) 5 = some 1 ∧
    returnFor (computeForwardReturns
      [⟨0, 0, some 10⟩, ⟨0, 10, some 20⟩, ⟨0, 7, some 15⟩] 0 [5] 0) 5 = some (1 / 2) ∧
    ¬((0 : ℤ) ≤ 7 ∧ (7 : ℤ) ≤ 0 + 5) := by
  refine ⟨?_, ?_, by decide⟩ <;>
    norm_num [returnFor, computeForwardReturns, companyRows, sortByDate,
      List.insertionSort, List.orderedInsert, dateLE, List.filter, List.find?]

/-- C1 (amended): the forward return for horizon `h` depends only on the
price rows dated `≤ T`, where `T` is the realized target date (the date of
the first row with date > base date and date ≥ as-of + h).  Any two FUND
tables whose date-sorted company rows agree on all rows dated ≤ T produce
the same horizon-`h` return; in particular mutating price data strictly
after the realized target date never changes the already-computed return. -/
theorem c1_no_lookahead_amended (fund1 fund2 : List PriceRow) (cusip : ℕ)
    (asOf : ℤ) (h : ℕ) (T : ℤ)
    (hT : realizedTargetDate fund1 asOf h cusip = some T)
    (hagree : (sortByDate (companyRows fund1 cusip)).filter (fun r => decide (r.date ≤ T)) =
      (sortByDate (companyRows fund2 cusip)).filter (fun r => decide (r.date ≤ T))) :
    returnFor (computeForwardReturns fund1 asOf [h] cusip) h =
      returnFor (computeForwardReturns fund2 asOf [h] cusip) h := by
  have hpair2 : (sortByDate (companyRows fund2 cusip)).Pairwise dateLE := pairwise_sortByDate _
  unfold realizedTargetDate at hT
  split at hT
  · exact absurd hT (by simp)
  · rename_i base heq
    rcases Option.map_eq_some'.mp hT with ⟨tgt, htgt, htgtT⟩
    have htgtmem := mem_of_head?_eq_some htgt
    have htargetP : asOf + (h : ℤ) ≤ tgt.date := by
      have := (List.mem_filter.mp htgtmem).2
      simpa using this
    have hAsOfT : asOf ≤ T := by
      have hh : (0 : ℤ) ≤ (h : ℤ) := Int.ofNat_nonneg h
      omega
    have himp1 : ∀ x ∈ sortByDate (companyRows fund1 cusip),
        decide (x.date ≤ asOf) = true → decide (x.date ≤ T) = true := by
      intro x _ hx
      simp only [decide_eq_true_eq] at hx ⊢
      omega
    have himp2 : ∀ x ∈ sortByDate (companyRows fund2 cusip),
        decide (x.date ≤ asOf) = true → decide (x.date ≤ T) = true := by
      intro x _ hx
      simp only [decide_eq_true_eq] at hx ⊢
      omega
    have hhist : (sortByDate (companyRows fund1 cusip)).filter (fun r => decide (r.date ≤ asOf)) =
        (sortByDate (companyRows fund2 cusip)).filter (fun r => decide (r.date ≤ asOf)) := by
      rw [filter_eq_filter_filter _ _ _ himp1, hagree, ← filter_eq_filter_filter _ _ _ himp2]
    have heq2 : ((sortByDate (companyRows fund2 cusip)).filter
        (fun r => decide (r.date ≤ asOf))).getLast? = some base := by
      rw [← hhist]
      exact heq
    have hbm1 : base ∈ companyRows fund1 cusip :=
      mem_sortByDate (List.mem_filter.mp (mem_of_getLast?_eq_some heq)).1
    have hbm2 : base ∈ companyRows fund2 cusip :=
      mem_sortByDate (List.mem_filter.mp (mem_of_getLast?_eq_some heq2)).1
    have hne1 : (companyRows fund1 cusip).isEmpty = false := by
      cases hc : companyRows fund1 cusip with
      | nil => rw [hc] at hbm1; simp at hbm1
      | cons _ _ => rfl
    have hne2 : (companyRows fund2 cusip).isEmpty = false := by
      cases hc : companyRows fund2 cusip with
      | nil => rw [hc] at hbm2; simp at hbm2
      | cons _ _ => rfl
    -- align the target selection on both tables
    rw [List.filter_filter] at htgt
    have hQtgt : decide (tgt.date ≤ T) = true := by simp [htgtT]
    have step2 := head?_filter_and _ (fun a => decide (a.date ≤ T)) _ _ htgt hQtgt
    rw [← List.filter_filter] at step2
    rw [hagree] at step2
    rw [List.filter_filter] at step2
    have step3 := head?_filter_sorted
      (fun a => decide (asOf + (h : ℤ) ≤ a.date) && decide (base.date < a.date)) T _
      hpair2 tgt step2 htgtT
    rw [← List.filter_filter] at htgt step3
    -- now compute both sides
    unfold computeForwardReturns
    simp only [hne1, hne2, Bool.false_eq_true, if_false, heq, heq2, List.map_cons, List.map_nil]
    rcases base.price with _ | bp
    · rfl
    · by_cases hbp0 : bp ≤ 0
      · simp [hbp0]
      · simp only [hbp0, if_false, returnFor_single]
        rw [htgt, step3]

/-- C2: on any FUND table whose rows for the requested identifier all carry
present, positive prices, `compute_forward_returns` returns exactly the
spec's description for every requested horizon: null for every horizon when
no price dated ≤ as-of exists; otherwise, with base = most recent row dated
≤ as-of, null for horizon h when no row has date > base date and
date ≥ as-of + h, else `(target_price/base_price) - 1` for the first such
row. -/
theorem c2_forward_return_formula (fund : List PriceRow) (cusip : ℕ) (asOf : ℤ)
    (horizons : List ℕ) (h : ℕ) (hmem : h ∈ horizons)
    (hpos : ∀ r ∈ companyRows fund cusip, ∃ p, r.price = some p ∧ 0 < p) :
    returnFor (computeForwardReturns fund asOf horizons cusip) h =
      specForwardReturn fund asOf h cusip := by
  unfold computeForwardReturns specForwardReturn
  cases hc : (companyRows fund cusip).isEmpty with
  | true =>
    have hcnil : companyRows fund cusip = [] := by simpa using hc
    simp [hcnil, sortByDate, List.insertionSort, returnFor_map_none]
  | false =>
    simp only [hc, Bool.false_eq_true, if_false]
    cases hbase : ((sortByDate (companyRows fund cusip)).filter
        (fun r => decide (r.date ≤ asOf))).getLast? with
    | none => simp [returnFor_map_none]
    | some base =>
      have hbmem : base ∈ companyRows fund cusip :=
        mem_sortByDate (List.mem_filter.mp (mem_of_getLast?_eq_some hbase)).1
      rcases hpos base hbmem with ⟨bp, hbp, hbp0⟩
      simp only [hbp, Option.getD_some]
      rw [if_neg (not_le.mpr hbp0)]
      rw [returnFor_map _ _ _ hmem]
      have hflip : ((sortByDate (companyRows fund cusip)).filter
            (fun r => decide (base.date < r.date))).filter
            (fun r => decide (asOf + (h : ℤ) ≤ r.date)) =
          (sortByDate (companyRows fund cusip)).filter
            (fun r => decide (base.date < r.date) && decide (asOf + (h : ℤ) ≤ r.date)) := by
        rw [List.filter_filter]
        exact List.filter_congr (fun x _ => Bool.and_comm _ _)
      rw [hflip]
      cases hhead : ((sortByDate (companyRows fund cusip)).filter
          (fun r => decide (base.date < r.date) && decide (asOf + (h : ℤ) ≤ r.date))).head? with
      | none => rfl
      | some tgt =>
        have htmem : tgt ∈ companyRows fund cusip :=
          mem_sortByDate (List.mem_filter.mp (mem_of_head?_eq_some hhead)).1
        rcases hpos tgt htmem with ⟨tp, htp, htp0⟩
        simp only [htp, Option.getD_some]
        rw [if_neg (not_le.mpr htp0)]
        congr 1
        rw [sub_div, div_self (ne_of_gt hbp0)]

/-- Witness for C2: a concrete four-row price series at horizons 5 and 10. -/
theorem c2_forward_return_formula_witness :
    returnFor (computeForwardReturns
      [⟨0, 0, some 10⟩, ⟨0, 6, some 12⟩, ⟨0, 12, some 15⟩] 0 [5, 10] 0) 10 =
    specForwardReturn [⟨0, 0, some 10⟩, ⟨0, 6, some 12⟩, ⟨0, 12, some 15⟩] 0 10 0 :=
  c2_forward_return_formula _ 0 0 [5, 10] 10 (by decide)
    (by
      intro r hr
      fin_cases hr <;> exact ⟨_, rfl, by norm_num⟩)

/-- C3: at the default quantile size 1/5, for a positive cap and
pairwise-distinct identifiers on the date: with fewer than 2 valid rows
`construct_portfolio` returns an empty allocation; with ≥ 2 valid rows it
returns a non-empty weight vector whose positive (long) weights sum to
exactly the absolute value of the sum of its negative (short) weights; and
every weight's absolute value is at most the configured cap. -/
theorem c3_portfolio_neutrality (univ : List SignalRow) (asOf : ℤ) (maxw : ℚ)
    (hmw : 0 < maxw)
    (hnd : ((validSignalRows univ asOf).map (fun r => r.ident)).Nodup) :
    ((validSignalRows univ asOf).length < 2 →
      constructPortfolio univ asOf (1 / 5) maxw = []) ∧
    (2 ≤ (validSignalRows univ asOf).length →
      constructPortfolio univ asOf (1 / 5) maxw ≠ [] ∧
      posWeightSum (constructPortfolio univ asOf (1 / 5) maxw) =
        |negWeightSum (constructPortfolio univ asOf (1 / 5) maxw)|) ∧
    (∀ p ∈ constructPortfolio univ asOf (1 / 5) maxw, |p.2| ≤ maxw) := by
  by_cases hlen : 2 ≤ (validSignalRows univ asOf).length
  · have hcf := constructPortfolio_closed_form univ asOf maxw hmw hnd hlen
    have hslen : ((validSignalRows univ asOf).insertionSort signalGE).length =
        (validSignalRows univ asOf).length := List.length_insertionSort _ _
    set v := validSignalRows univ asOf with hv
    set s := v.insertionSort signalGE with hs
    set N := v.length with hN
    set m := max 1 (N / 5) with hm
    set w := min (1 / (m : ℚ)) maxw with hw
    have hm1 : 1 ≤ m := le_max_left _ _
    have hmN : m ≤ N := by
      have : N / 5 ≤ N := Nat.div_le_self _ _
      omega
    have hmQ : (0 : ℚ) < (m : ℚ) := by exact_mod_cast hm1
    have hwpos : 0 < w := lt_min (by positivity) hmw
    have hwle : w ≤ maxw := min_le_right _ _
    have htake : (s.take m).length = m := by
      rw [List.length_take, hslen]
      omega
    have hdrop : (s.drop (N - m)).length = m := by
      rw [List.length_drop, hslen]
      omega
    refine ⟨fun hlt => absurd hlen (by omega), fun _ => ⟨?_, ?_⟩, ?_⟩
    · rw [hcf]
      intro hnil
      rcases List.append_eq_nil.mp hnil with ⟨hA, _⟩
      rw [List.map_eq_nil_iff] at hA
      have hlen0 := congrArg List.length hA
      rw [htake] at hlen0
      simp at hlen0
      omega
    · rw [hcf, posWeightSum_append, negWeightSum_append,
        posWeightSum_map_const_pos _ _ hwpos,
        posWeightSum_map_const_neg _ _ (neg_neg_of_pos hwpos),
        negWeightSum_map_const_pos _ _ hwpos,
        negWeightSum_map_const_neg _ _ (neg_neg_of_pos hwpos),
        htake, hdrop]
      rw [add_zero, zero_add, mul_neg, abs_neg, abs_of_pos (by positivity)]
    · rw [hcf]
      intro p hp
      rcases List.mem_append.mp hp with hpl | hpr
      · rcases List.mem_map.mp hpl with ⟨r, _, rfl⟩
        simpa [abs_of_pos hwpos] using hwle
      · rcases List.mem_map.mp hpr with ⟨r, _, rfl⟩
        simpa [abs_neg, abs_of_pos hwpos] using hwle
  · have hempty : constructPortfolio univ asOf (1 / 5) maxw = [] := by
      unfold constructPortfolio
      rw [if_pos (by omega)]
    refine ⟨fun _ => hempty, fun hc => absurd hc hlen, ?_⟩
    rw [hempty]
    intro p hp
    simp at hp

/-- Witness for C3: five rows with distinct identifiers and signals
5, 4, 3, 2, 1 at cap 1/10. -/
theorem c3_portfolio_neutrality_witness :
    (((validSignalRows [⟨1, 0, some 5⟩, ⟨2, 0, some 4⟩, ⟨3, 0, some 3⟩,
        ⟨4, 0, some 2⟩, ⟨5, 0, some 1⟩] 0).length < 2) →
      constructPortfolio [⟨1, 0, some 5⟩, ⟨2, 0, some 4⟩, ⟨3, 0, some 3⟩,
        ⟨4, 0, some 2⟩, ⟨5, 0, some 1⟩] 0 (1 / 5) (1 / 10) = []) ∧
    (2 ≤ (validSignalRows [⟨1, 0, some 5⟩, ⟨2, 0, some 4⟩, ⟨3, 0, some 3⟩,
        ⟨4, 0, some 2⟩, ⟨5, 0, some 1⟩] 0).length →
      constructPortfolio [⟨1, 0, some 5⟩, ⟨2, 0, some 4⟩, ⟨3, 0, some 3⟩,
        ⟨4, 0, some 2⟩, ⟨5, 0, some 1⟩] 0 (1 / 5) (1 / 10) ≠ [] ∧
      posWeightSum (constructPortfolio [⟨1, 0, some 5⟩, ⟨2, 0, some 4⟩, ⟨3, 0, some 3⟩,
          ⟨4, 0, some 2⟩, ⟨5, 0, some 1⟩] 0 (1 / 5) (1 / 10)) =
        |negWeightSum (constructPortfolio [⟨1, 0, some 5⟩, ⟨2, 0, some 4⟩, ⟨3, 0, some 3⟩,
          ⟨4, 0, some 2⟩, ⟨5, 0, some 1⟩] 0 (1 / 5) (1 / 10))|) ∧
    (∀ p ∈ constructPortfolio [⟨1, 0, some 5⟩, ⟨2, 0, some 4⟩, ⟨3, 0, some 3⟩,
        ⟨4, 0, some 2⟩, ⟨5, 0, some 1⟩] 0 (1 / 5) (1 / 10), |p.2| ≤ 1 / 10) :=
  c3_portfolio_neutrality _ 0 (1 / 10) (by norm_num) (by decide)

/-- C8: `compute_turnover` aligns the two weight vectors over the union of
their names (missing names read as 0) and returns `Σ|curr − prev| / 2`;
consequently `compute_turnover(W, W) = 0` for every weight vector, and
`compute_turnover(∅, W) = Σ|W| / 2` for every weight vector with
pairwise-distinct names. -/
theorem c8_turnover_bounds (W : List (ℕ × ℚ)) (hnd : (W.map Prod.fst).Nodup) :
    computeTurnover W W = 0 ∧
    computeTurnover [] W = (W.map (fun p => |p.2|)).sum / 2 := by
  constructor
  · simp [computeTurnover, sub_self]
  · simp only [computeTurnover, List.map_nil, List.nil_append]
    rw [List.dedup_eq_self.mpr hnd]
    have hfun : ∀ n ∈ W.map Prod.fst,
        |alignedWeight W n - alignedWeight [] n| = |alignedWeight W n| := by
      intro n _
      rw [alignedWeight_nil, sub_zero]
    rw [List.map_congr_left hfun, turnoverSum_nodup W hnd]

/-- C4 counterexample: `rating_to_base_score` does NOT apply the substring
heuristics the claim describes.  On "Strong Sell" the claimed behaviour
(no exact case-insensitive match, contains SELL) yields −2, but the code —
whose only fallback is the case-insensitive variation loop over the table —
returns the default 0. -/
theorem c4_heuristics_counterexample :
    ratingToBaseScoreClaim "Strong Sell" = -2 ∧
    ratingToBaseScore "Strong Sell" = 0 :=
  ⟨by decide, by decide⟩

/-- C4 (amended): `rating_to_base_score` performs exact case-insensitive
matching only — for every input it equals a single case-insensitive lookup
in `RATING_TO_SCORE` (which spells out the uppercase/spaced variants),
defaulting to 0 with no substring heuristics; in particular
`rating_to_base_score("StrongBuy") = 2`, `rating_to_base_score("sell") = −2`
and `rating_to_base_score("garbage") = 0`.  (The substring heuristics of the
original claim live in `human_rating_to_score`, not here.) -/
theorem c4_exact_match_amended :
    (∀ r : String, ratingToBaseScore r = ratingToBaseScoreCI r) ∧
    ratingToBaseScore "StrongBuy" = 2 ∧
    ratingToBaseScore "sell" = -2 ∧
    ratingToBaseScore "garbage" = 0 := by
  refine ⟨fun r => ?_, by decide, by decide, by decide⟩
  simp only [ratingToBaseScore, ratingToBaseScoreCI]
  cases hfind : RATING_TO_SCORE.find? (fun e => e.1 == strUpper (strStrip r)) with
  | none => rfl
  | some e =>
    have he : e.1 = strUpper (strStrip r) := by
      have := List.find?_some hfind
      simpa using this
    have hmem : e ∈ RATING_TO_SCORE := List.mem_of_find?_eq_some hfind
    have he' := he.symm
    simp only [RATING_TO_SCORE, List.mem_cons, List.not_mem_nil, or_false] at hmem
    rcases hmem with rfl | rfl | rfl | rfl | rfl | rfl | rfl | rfl | rfl | rfl | rfl | rfl <;>
      first
        | (have hidem := strUpper_idem (strStrip r)
           rw [he'] at hidem
           exact absurd hidem (by decide))
        | (rw [he']; decide)

lemma countP_indicator_sum (s : String)
    (hs : s = "Agreement" ∨ s = "AI_More_Bullish" ∨ s = "AI_More_Bearish" ∨ s = "Unknown") :
    (if (s == "Agreement") then 1 else 0) + (if (s == "AI_More_Bullish") then 1 else 0) +
      (if (s == "AI_More_Bearish") then 1 else 0) + (if (s == "Unknown") then 1 else 0) = 1 := by
  rcases hs with rfl | rfl | rfl | rfl <;> decide

lemma classify_mem_four (a h : Option ℚ) :
    classifyConsensusContrarian a h = "Agreement" ∨
    classifyConsensusContrarian a h = "AI_More_Bullish" ∨
    classifyConsensusContrarian a h = "AI_More_Bearish" ∨
    classifyConsensusContrarian a h = "Unknown" := by
  rcases a with _ | a
  · simp [classifyConsensusContrarian]
  rcases h with _ | h
  · simp [classifyConsensusContrarian]
  · simp only [classifyConsensusContrarian]
    split_ifs <;> simp

/-- C7: `classify_consensus_contrarian` is a total four-way classification:
"Unknown" when either input is null; "Agreement" when the scores have the
same sign (zero counting as either sign); "AI_More_Bullish" when they have
opposite signs and ai > human; "AI_More_Bearish" when they have opposite
signs otherwise; consequently the four bucket counts of any universe sum to
the row count. -/
theorem c7_classification_total :
    (∀ h : Option ℚ, classifyConsensusContrarian none h = "Unknown") ∧
    (∀ a : Option ℚ, classifyConsensusContrarian a none = "Unknown") ∧
    (∀ a h : ℚ, ((0 ≤ a ∧ 0 ≤ h) ∨ (a ≤ 0 ∧ h ≤ 0)) →
      classifyConsensusContrarian (some a) (some h) = "Agreement") ∧
    (∀ a h : ℚ, ((0 < a ∧ h < 0) ∨ (a < 0 ∧ 0 < h)) → h < a →
      classifyConsensusContrarian (some a) (some h) = "AI_More_Bullish") ∧
    (∀ a h : ℚ, ((0 < a ∧ h < 0) ∨ (a < 0 ∧ 0 < h)) → ¬h < a →
      classifyConsensusContrarian (some a) (some h) = "AI_More_Bearish") ∧
    (∀ rows : List (Option ℚ × Option ℚ),
      rows.countP (fun p => classifyConsensusContrarian p.1 p.2 == "Agreement") +
        rows.countP (fun p => classifyConsensusContrarian p.1 p.2 == "AI_More_Bullish") +
        rows.countP (fun p => classifyConsensusContrarian p.1 p.2 == "AI_More_Bearish") +
        rows.countP (fun p => classifyConsensusContrarian p.1 p.2 == "Unknown") =
      rows.length) := by
  refine ⟨fun h => by cases h <;> rfl, fun a => by cases a <;> rfl, ?_, ?_, ?_, ?_⟩
  · intro a h hsign
    have hprod : 0 ≤ a * h := by
      rcases hsign with ⟨ha, hh⟩ | ⟨ha, hh⟩
      · exact mul_nonneg ha hh
      · exact mul_nonneg_of_nonpos_of_nonpos ha hh
    simp only [classifyConsensusContrarian]
    rw [if_pos hprod]
  · intro a h hsign hlt
    have hprod : a * h < 0 := by
      rcases hsign with ⟨ha, hh⟩ | ⟨ha, hh⟩
      · exact mul_neg_of_pos_of_neg ha hh
      · exact mul_neg_of_neg_of_pos ha hh
    simp only [classifyConsensusContrarian]
    rw [if_neg (not_le.mpr hprod), if_pos hlt]
  · intro a h hsign hlt
    have hprod : a * h < 0 := by
      rcases hsign with ⟨ha, hh⟩ | ⟨ha, hh⟩
      · exact mul_neg_of_pos_of_neg ha hh
      · exact mul_neg_of_neg_of_pos ha hh
    simp only [classifyConsensusContrarian]
    rw [if_neg (not_le.mpr hprod), if_neg hlt]
  · intro rows
    induction rows with
    | nil => rfl
    | cons p tl ih =>
      simp only [List.countP_cons, List.length_cons]
      have hind := countP_indicator_sum _ (classify_mem_four p.1 p.2)
      omega

/-- Witness for C7: a concrete contrarian pair with opposite signs and
ai > human classifies as "AI_More_Bullish". -/
theorem c7_classification_total_witness :
    classifyConsensusContrarian (some 2) (some (-1)) = "AI_More_Bullish" :=
  c7_classification_total.2.2.2.1 2 (-1) (Or.inl ⟨by norm_num, by norm_num⟩) (by norm_num)

/-- C9: `human_rating_to_score` maps a null human rating to 0.0 (the Hold
score) instead of propagating it as missing; hence a row with a null human
rating and a non-null AI base score is always classified "Agreement" —
never "Unknown" — by `analyze_consensus_contrarian`. -/
theorem c9_null_human_rating_agreement :
    humanRatingToScore none = 0 ∧
    (∀ a : ℚ, bucketOf (some a) none = "Agreement" ∧
      bucketOf (some a) none ≠ "Unknown") := by
  refine ⟨rfl, fun a => ?_⟩
  have hb : bucketOf (some a) none = "Agreement" := by
    show classifyConsensusContrarian (some a) (some 0) = _
    simp [classifyConsensusContrarian]
  exact ⟨hb, by rw [hb]; decide⟩

/-- C5 (code bug): `compute_ic_statistics` never computes the claimed
Bartlett/Newey-West variance.  In the source, `residuals` is a date-indexed
pandas Series, so `residuals[:-lag] * residuals[lag:]` multiplies with
label alignment: the "autocovariance" is really the skipna mean of squared
central residuals over the overlapping dates — and `NaN` when no dates
overlap.  At the failing input `ic = [1, 2, 4, 8]` with `nw_lags = 1`
(`n = 4 > L + 1`), the code produces t-statistic parts `(15/4, 35/16)`
while the claimed formula `variance = sample variance +
2·Σ w_k·autocovariance(k)` gives `(15/4, 9/4)`; and at a 7-element series
with the default `nw_lags = 5` the lag-4 overlap is empty, so the code's
t-statistic is `NaN` (`none`) although the claimed formula is defined. -/
theorem c5_bartlett_code_bug :
    (computeICStatistics [1, 2, 4, 8] 1).tStatParts = some (15 / 4, 35 / 16) ∧
    tStatSpec [1, 2, 4, 8] 1 = some (15 / 4, 9 / 4) ∧
    (computeICStatistics [1, 2, 4, 8] 1).tStatParts ≠ tStatSpec [1, 2, 4, 8] 1 ∧
    (computeICStatistics [1, 2, 4, 8, 16, 32, 3] 5).tStatParts = none ∧
    tStatSpec [1, 2, 4, 8, 16, 32, 3] 5 ≠ none := by
  refine ⟨?_, ?_, ?_, ?_, ?_⟩ <;>
    (norm_num [computeICStatistics, tStatSpec, nwVariance, autocovAligned, autocovSpec,
      npMean, npVar, sampleStdSq, List.range', Finset.sum_Icc_succ_top, Finset.Icc_self,
      Finset.sum_singleton]) <;>
    (simp
     all_goals norm_num)

/-- C6: `compute_ic_statistics` on an empty IC series returns an all-null
record with `n_observations = 0`; as a total function of the embedding it
never raises. -/
theorem c6_empty_ic_statistics (L : ℕ) :
    (computeICStatistics [] L).mean_ic = none ∧
    (computeICStatistics [] L).stdSq_ic = none ∧
    (computeICStatistics [] L).tStatParts = none ∧
    (computeICStatistics [] L).hitRate = none ∧
    (computeICStatistics [] L).n_observations = 0 :=
  ⟨rfl, rfl, rfl, rfl, rfl⟩

/-- C10: every entry of the series returned by `compute_ic_series` is a
defined (non-`NaN`) correlation: its date has at least 2 rows with both
signal and return non-null, and neither the cross-sectional signal column
nor the return column is constant (both centered sums of squares are
non-zero) — dates with an undefined Pearson correlation are omitted, so
`NaN` never reaches the aggregate statistics. -/
theorem c10_ic_series_defined (univ : List URow) (d : ℤ) (pv : ℚ × ℚ)
    (hmem : (d, pv) ∈ computeICSeries univ) :
    2 ≤ (validICRows univ d).length ∧
    ssq ((validICRows univ d).map (fun r => r.signal.getD 0)) ≠ 0 ∧
    ssq ((validICRows univ d).map (fun r => r.ret.getD 0)) ≠ 0 := by
  unfold computeICSeries at hmem
  rcases List.mem_filterMap.mp hmem with ⟨d', _, hf⟩
  simp only at hf
  by_cases hlen : (validICRows univ d').length < 2
  · rw [if_pos hlen] at hf
    exact absurd hf (by simp)
  · rw [if_neg hlen] at hf
    cases hp : pearsonParts ((validICRows univ d').map (fun r => r.signal.getD 0))
        ((validICRows univ d').map (fun r => r.ret.getD 0)) with
    | none => rw [hp] at hf; exact absurd hf (by simp)
    | some ic =>
      rw [hp] at hf
      have hd : d' = d := by
        have := Option.some.inj hf
        exact congrArg Prod.fst this
      subst hd
      unfold pearsonParts at hp
      by_cases hz : ssq ((validICRows univ d').map (fun r => r.signal.getD 0)) *
          ssq ((validICRows univ d').map (fun r => r.ret.getD 0)) = 0
      · rw [if_pos hz] at hp
        exact absurd hp (by simp)
      · exact ⟨by omega, (mul_ne_zero_iff.mp hz).1, (mul_ne_zero_iff.mp hz).2⟩

/-- Witness for C10: a two-row date with signals 1, 3 and returns 0, 2
produces the single defined IC entry `(0, (2, 4))`. -/
theorem c10_ic_series_defined_witness :
    2 ≤ (validICRows [⟨0, some 1, some 0⟩, ⟨0, some 3, some 2⟩] 0).length ∧
    ssq ((validICRows [⟨0, some 1, some 0⟩, ⟨0, some 3, some 2⟩] 0).map
      (fun r => r.signal.getD 0)) ≠ 0 ∧
    ssq ((validICRows [⟨0, some 1, some 0⟩, ⟨0, some 3, some 2⟩] 0).map
      (fun r => r.ret.getD 0)) ≠ 0 :=
  c10_ic_series_defined _ 0 (2, 4) (by
    have hser : computeICSeries [⟨0, some 1, some 0⟩, ⟨0, some 3, some 2⟩] = [(0, (2, 4))] := by
      norm_num [computeICSeries, icDates, validICRows, pearsonParts, ssq, sxy, npMean,
        List.insertionSort, List.orderedInsert, List.filterMap, List.dedup, List.filter]
    rw [hser]
    exact List.mem_singleton.mpr rfl)

/-- Witness for C8: the concrete two-name long/short book `{1 ↦ 1/2, 2 ↦ −1/2}`. -/
theorem c8_turnover_bounds_witness :
    computeTurnover [(1, 1 / 2), (2, -(1 / 2))] [(1, 1 / 2), (2, -(1 / 2))] = 0 ∧
    computeTurnover [] [(1, 1 / 2), (2, -(1 / 2))] =
      (([(1, 1 / 2), (2, -(1 / 2))] : List (ℕ × ℚ)).map (fun p => |p.2|)).sum / 2 :=
  c8_turnover_bounds _ (by decide)

/-- Witness for C1 (amended): with the realized target date 10, appending a
row dated 20 > 10 leaves the horizon-5 return unchanged. -/
theorem c1_no_lookahead_amended_witness :
    returnFor (computeForwardReturns
      [⟨0, 0, some 10⟩, ⟨0, 10, some 20⟩] 0 [5] 0) 5 =
    returnFor (computeForwardReturns
      [⟨0, 0, some 10⟩, ⟨0, 10, some 20⟩, ⟨0, 20, some 100⟩] 0 [5] 0) 5 :=
  c1_no_lookahead_amended _ _ 0 0 5 10 (by decide) (by decide)

end EvalEngine
